import Mathlib

/-!
Word-count map/reduce (`mapred.go`): a shallow embedding.

The Go program splits a token buffer into chunks, counts the words of every
chunk in its own goroutine (`mapfunc`), and merges the per-chunk tallies in a
single goroutine (`reducer`).  A `sync.WaitGroup` is meant to tell `main` when
all tallies have been merged.

Modelling conventions.

* A Go `[]string` is a `GoSlice`: the `len` visible elements together with the
  rest of the backing array (up to `cap`).  A slice expression on a slice is
  checked against `cap`, not `len`.
* A Go `map[string]int` is an association list with pairwise distinct keys
  (`AList`).  Two maps are the same map when they agree on every key.
* Go `int` is the 64-bit two's complement type.  The values of a map are
  integers in `[-2^63, 2^63)` (`GoInt`), and `m[w] += d` stores the sum reduced
  modulo `2^64` into that range (`wrapInt`), as Go does.
* Indices and lengths are modelled by `Int` without reduction, because no index
  computation of the program can wrap.  In the splitter loop `i < len(buffer)`
  holds before `i += numWordsPerMap`, and `numWordsPerMap ≤ i` unless `i = 0`, so
  the sum stays below `max(numWordsPerMap, 2 * len(buffer))`; `mapfunc` computes
  at most `len(buffer) + 1`.  A slice of strings that fits in memory has fewer
  than `2^60` elements.
* Code that can panic returns `Option`; `none` is the panic.
* Goroutines are modelled by an executable small-step function, one Go
  statement per step, the scheduler being the list of actions taken.
-/

namespace MapRed

/-! ## Data model -/

/-- A Go slice of strings: `elems` are the `len` elements of the slice,
`spare` is the remainder of the backing array, so `cap = len + spare.length`. -/
structure GoSlice where
  elems : List String
  spare : List String
deriving DecidableEq, Repr

/-- Go `len(s)`. -/
def GoSlice.len (s : GoSlice) : Int := s.elems.length

/-- Go `cap(s)`. -/
def GoSlice.cap (s : GoSlice) : Int := s.elems.length + s.spare.length

/-- The elements of the Go slice expression `j[lo:hi]`, or `none` when the
expression panics.  For a slice operand the bounds must satisfy
`0 ≤ lo ≤ hi ≤ cap(j)`; the result has the `hi - lo` elements of the backing
array starting at index `lo`. -/
def GoSlice.slice (j : GoSlice) (lo hi : Int) : Option (List String) :=
  if 0 ≤ lo ∧ lo ≤ hi ∧ hi ≤ j.cap then
    some (((j.elems ++ j.spare).drop lo.toNat).take (hi - lo).toNat)
  else
    none

/-- The value Go `int` arithmetic yields when the exact result is `x`: the
integer of `[-2^63, 2^63)` congruent to `x` modulo `2^64`. -/
def wrapInt (x : Int) : Int :=
  (x + 9223372036854775808) % 18446744073709551616 - 9223372036854775808

/-- A value of the Go type `int`: an integer of `[-2^63, 2^63)`. -/
abbrev GoInt := { x : Int // -9223372036854775808 ≤ x ∧ x ≤ 9223372036854775807 }

/-- The Go `int` that an operation with exact result `x` yields. -/
def GoInt.wrap (x : Int) : GoInt :=
  ⟨wrapInt x, by unfold wrapInt; omega⟩

/-- A Go `map[string]int`. -/
abbrev Tally := AList (fun _ : String => GoInt)

/-- Go `make(map[string]int)`. -/
def Tally.empty : Tally := (∅ : AList (fun _ : String => GoInt))

/-- Go `m[w]` in an expression: the stored value, or the zero value `0` when
`w` has no entry. -/
def Tally.get (m : Tally) (w : String) : Int :=
  match AList.lookup w m with
  | some v => v.val
  | none => 0

/-- The entry test `_, ok := m[w]`. -/
def Tally.has (m : Tally) (w : String) : Bool := (AList.lookup w m).isSome

/-- Go `m[w] += d`: reads `m[w]` (zero when absent) and stores the sum as Go
`int` addition computes it (wrapping around), which creates the entry when it
was absent. -/
def Tally.addTo (m : Tally) (w : String) (d : Int) : Tally :=
  AList.insert w (GoInt.wrap (Tally.get m w + d)) m

/-- The struct `mapJob` (lines 15-19).  `wordsBag` points at the buffer of
`main`, which is not written after the splitter loop starts, so the pointer
is modelled by the slice value it points at. -/
structure mapJob where
  wordsBag : GoSlice
  startIndex : Int
  length : Int
deriving DecidableEq, Repr

/-- The struct `reduceJob` (lines 21-23). -/
structure reduceJob where
  counts : Tally

/-! ## Sequential pieces -/

/-- The loop `for _, w := range ws { counts[w]++ }` (lines 41-43 and 126-128),
started from the map `counts`. -/
def countWords (ws : List String) (counts : Tally) : Tally :=
  ws.foldl (fun c w => Tally.addTo c w 1) counts

/-- The function `mapfunc` (lines 35-47): the value sent on the channel, or
`none` when the slice expression `j[start : start+ct+1]` panics. -/
def mapfunc (job : mapJob) : Option reduceJob :=
  let j := job.wordsBag
  let start := job.startIndex
  let ct := job.length
  match j.slice start (start + ct + 1) with
  | none => none
  | some ws => some ⟨countWords ws Tally.empty⟩

/-- The function `myMin` (lines 49-55). -/
def myMin (a : Int) (b : Int) : Int :=
  let min := b
  if a < b then a else min

/-- The splitter loop of `main` (lines 110-112),
`for i := 0; i < len(buffer); i += numWordsPerMap`, started at index `i`;
it returns the descriptors sent on `c1`, in order.  The fuel bounds the number
of evaluations of the loop condition; `none` means the fuel ran out. -/
def splitLoop (buffer : GoSlice) (numWordsPerMap : Int) : Nat → Int → Option (List mapJob)
  | 0, _ => none
  | fuel + 1, i =>
    if i < buffer.len then
      (splitLoop buffer numWordsPerMap fuel (i + numWordsPerMap)).map
        (fun rest => ⟨buffer, i, myMin numWordsPerMap (buffer.len - i)⟩ :: rest)
    else
      some []

/-- The chunk size fixed in `main` (line 109). -/
def numWordsPerMap : Int := 200000

/-- The merge loop of `reducer` (lines 60-62),
`for w, ct := range counts { finalCounts[w] += ct }`, visiting the entries in
the order of the list `entries`. -/
def mergeEntries (finalCounts : Tally) (entries : List (Sigma fun _ : String => GoInt)) :
    Tally :=
  entries.foldl (fun f e => Tally.addTo f e.1 e.2.val) finalCounts

/-- One iteration of the loop of `reducer` without the `wg.Done()`: the
received tally is merged into `finalCounts`. -/
def mergeTally (finalCounts : Tally) (input : reduceJob) : Tally :=
  mergeEntries finalCounts input.counts.entries

/-- The reducer run on the tallies `inputs`, in their order of arrival. -/
def reduceAll (finalCounts : Tally) (inputs : List reduceJob) : Tally :=
  inputs.foldl mergeTally finalCounts

/-- The serial count of `main` (lines 125-128). -/
def serialCount (buffer : GoSlice) : Tally :=
  countWords buffer.elems Tally.empty

/-- The parallel path as a function: the splitter output, every descriptor
mapped by `mapfunc`, the tallies merged in order of dispatch.  `none` when the
fuel runs out or a map task panics. -/
def parallelCount (fuel : Nat) (buffer : GoSlice) (chunk : Int) : Option Tally :=
  match splitLoop buffer chunk fuel 0 with
  | none => none
  | some jobs =>
    match jobs.mapM mapfunc with
    | none => none
    | some tallies => some (reduceAll Tally.empty tallies)

/-! ## The goroutines as a step function -/

/-- Where `main` stands once the buffer is built and `go mapper` (line 107)
has run: at the loop condition of line 110 with loop variable `i`, blocked in
`wg.Wait()` (line 117, the reducer having been started at line 115), or past
`wg.Wait()`. -/
inductive MainPc where
  | split (i : Int)
  | wait
  | done
deriving DecidableEq, Repr

/-- Where `mapper` stands: at the receive of line 28, at `go mapfunc(job, c2)`
(line 30) holding `job`, or at `wg.Add(1)` (line 31). -/
inductive MapperPc where
  | recv
  | launch (job : mapJob)
  | add
deriving DecidableEq, Repr

/-- Where `reducer` stands: not yet started, at the receive of line 58, or at
`wg.Done()` (line 63) with the received tally already merged. -/
inductive ReducerPc where
  | notStarted
  | recv
  | done
deriving DecidableEq, Repr

/-- The inputs of a run: the buffer, the chunk size, and `runtime.NumCPU()`,
which is the capacity of both channels (at least 1 on every machine). -/
structure Config where
  buffer : GoSlice
  chunk : Int
  numCPU : Nat

/-- The shared state of a run.  `c1` and `c2` hold the queued values of the
two buffered channels, `tasks` the descriptors of the `mapfunc` goroutines
that were launched and have not yet sent, `wg` the counter of the
`sync.WaitGroup`, and `panicked` tells whether some goroutine has panicked
(which ends the program). -/
structure Sys where
  mainPc : MainPc
  mapperPc : MapperPc
  reducerPc : ReducerPc
  c1 : List mapJob
  tasks : List mapJob
  c2 : List reduceJob
  finalCounts : Tally
  wg : Int
  panicked : Bool

/-- The state in which `main` reaches the splitter loop. -/
def Sys.init : Sys :=
  { mainPc := MainPc.split 0, mapperPc := MapperPc.recv, reducerPc := ReducerPc.notStarted,
    c1 := [], tasks := [], c2 := [], finalCounts := Tally.empty, wg := 0, panicked := false }

/-- Who moves next: `main`, `mapper`, the `k`-th pending `mapfunc` goroutine,
or `reducer`. -/
inductive Action where
  | main
  | mapper
  | task (k : Nat)
  | reducer
deriving DecidableEq, Repr

/-- One statement of `main` (lines 110-117).  A send on the full channel `c1`
and a `wg.Wait()` on a non-zero counter block. -/
def stepMain (cfg : Config) (s : Sys) : Option Sys :=
  match s.mainPc with
  | MainPc.split i =>
    if i < cfg.buffer.len then
      if s.c1.length < cfg.numCPU then
        some { s with
          c1 := s.c1 ++ [⟨cfg.buffer, i, myMin cfg.chunk (cfg.buffer.len - i)⟩]
          mainPc := MainPc.split (i + cfg.chunk) }
      else
        none
    else
      some { s with reducerPc := ReducerPc.recv, mainPc := MainPc.wait }
  | MainPc.wait => if s.wg = 0 then some { s with mainPc := MainPc.done } else none
  | MainPc.done => none

/-- One statement of `mapper` (lines 28, 30, 31).  The receive blocks on an
empty `c1`. -/
def stepMapper (s : Sys) : Option Sys :=
  match s.mapperPc with
  | MapperPc.recv =>
    match s.c1 with
    | [] => none
    | job :: rest => some { s with c1 := rest, mapperPc := MapperPc.launch job }
  | MapperPc.launch job => some { s with tasks := s.tasks ++ [job], mapperPc := MapperPc.add }
  | MapperPc.add => some { s with wg := s.wg + 1, mapperPc := MapperPc.recv }

/-- The `k`-th pending `mapfunc` goroutine runs (lines 36-45): it panics on the
slice expression, or sends its tally on `c2`; the send blocks on a full `c2`. -/
def stepTask (cfg : Config) (k : Nat) (s : Sys) : Option Sys :=
  match s.tasks[k]? with
  | none => none
  | some job =>
    match mapfunc job with
    | none => some { s with tasks := s.tasks.eraseIdx k, panicked := true }
    | some r =>
      if s.c2.length < cfg.numCPU then
        some { s with tasks := s.tasks.eraseIdx k, c2 := s.c2 ++ [r] }
      else
        none

/-- One step of `reducer`: the receive and merge loop (lines 58-62), or
`wg.Done()` (line 63), which panics when the counter becomes negative. -/
def stepReducer (s : Sys) : Option Sys :=
  match s.reducerPc with
  | ReducerPc.notStarted => none
  | ReducerPc.recv =>
    match s.c2 with
    | [] => none
    | input :: rest =>
      some { s with c2 := rest, finalCounts := mergeTally s.finalCounts input,
                    reducerPc := ReducerPc.done }
  | ReducerPc.done =>
    some { s with wg := s.wg - 1, panicked := decide (s.wg - 1 < 0), reducerPc := ReducerPc.recv }

/-- One step of the program; `none` when the chosen goroutine cannot move. -/
def step (cfg : Config) (a : Action) (s : Sys) : Option Sys :=
  if s.panicked then none
  else
    match a with
    | Action.main => stepMain cfg s
    | Action.mapper => stepMapper s
    | Action.task k => stepTask cfg k s
    | Action.reducer => stepReducer s

/-- The program run under the schedule `sched`. -/
def run (cfg : Config) : List Action → Sys → Option Sys
  | [], s => some s
  | a :: sched, s => (step cfg a s).bind (run cfg sched)

/-- The states some schedule reaches from the initial state. -/
inductive Reachable (cfg : Config) : Sys → Prop where
  | init : Reachable cfg Sys.init
  | step (a : Action) (s t : Sys) : Reachable cfg s → step cfg a s = some t → Reachable cfg t

/-- Whether `mapper` has received a descriptor it has not launched yet. -/
def MapperPc.holdsJob : MapperPc → Bool
  | MapperPc.launch _ => true
  | _ => false

/-- The number of map tasks launched whose tally is not yet merged: the
goroutines still running and the tallies queued on `c2`. -/
def Sys.launchedNotMerged (s : Sys) : Int := s.tasks.length + s.c2.length

/-- No descriptor fed by `main` is still on its way to `finalCounts`. -/
def Sys.allMerged (s : Sys) : Bool :=
  s.c1.isEmpty && !s.mapperPc.holdsJob && s.tasks.isEmpty && s.c2.isEmpty

/-- The states in which nothing was ever dispatched: both channels are empty,
`mapper` waits at its receive, no map task exists, the reducer is not started
or waits at its receive, the counter is 0, `finalCounts` is empty, nothing has
panicked, and `main` is at the loop with `i = 0` or past it. -/
def Sys.idle (s : Sys) : Prop :=
  s.c1 = [] ∧ s.mapperPc = MapperPc.recv ∧ s.tasks = [] ∧ s.c2 = [] ∧ s.wg = 0
    ∧ s.finalCounts = Tally.empty ∧ s.panicked = false ∧ s.reducerPc ≠ ReducerPc.done
    ∧ (s.mainPc = MainPc.split 0 ∨ s.mainPc = MainPc.wait ∨ s.mainPc = MainPc.done)

/-- Whether index `x` lies in the range `[startIndex, startIndex+length)` the
descriptor `job` stands for. -/
def mapJob.covers (job : mapJob) (x : Int) : Bool :=
  decide (job.startIndex ≤ x ∧ x < job.startIndex + job.length)

/-- A buffer of five tokens whose backing array is full (`cap = len = 5`). -/
def fiveTokens : GoSlice := ⟨["to", "be", "or", "not", "to"], []⟩

/-- The same five tokens in a backing array of capacity 8, the unused slots
holding the zero value of `string`. -/
def fiveTokensRoomy : GoSlice := ⟨["to", "be", "or", "not", "to"], ["", "", ""]⟩

/-- The buffer of concrete scenario A, backing array full (`cap = len = 6`). -/
def scenarioA : GoSlice := ⟨["a", "b", "a", "c", "b", "a"], []⟩

/-- The buffer of concrete scenario A in a backing array of capacity 8. -/
def scenarioARoomy : GoSlice := ⟨["a", "b", "a", "c", "b", "a"], ["", ""]⟩

/-- Three tokens in a backing array of capacity 4. -/
def threeTokens : GoSlice := ⟨["x", "y", "z"], [""]⟩

/-- A run over `threeTokens` with the chunk size of `main` on two CPUs. -/
def threeTokensRun : Config := ⟨threeTokens, numWordsPerMap, 2⟩

/-- The only descriptor `main` sends in `threeTokensRun`. -/
def threeTokensJob : mapJob := ⟨threeTokens, 0, 3⟩

/-- A received tally in which the word `a` has the greatest `int`. -/
def fullTally : reduceJob := ⟨Tally.addTo Tally.empty "a" 9223372036854775807⟩

/-- A received tally in which the word `a` has the count 1. -/
def unitTally : reduceJob := ⟨Tally.addTo Tally.empty "a" 1⟩

/-! ## Go `int` arithmetic -/

theorem wrapInt_eq_iff (x : Int) :
    wrapInt x = x ↔ (-9223372036854775808 ≤ x ∧ x ≤ 9223372036854775807) := by
  unfold wrapInt
  omega

theorem wrapInt_idem (x : Int) : wrapInt (wrapInt x) = wrapInt x := by
  unfold wrapInt
  omega

theorem wrapInt_add_left (x y : Int) : wrapInt (wrapInt x + y) = wrapInt (x + y) := by
  unfold wrapInt
  omega

/-! ## Maps: reading after writing -/

theorem Tally.get_empty (w : String) : Tally.get Tally.empty w = 0 := by
  simp [Tally.get, Tally.empty]

theorem Tally.has_empty (w : String) : Tally.has Tally.empty w = false := by
  simp [Tally.has, Tally.empty]

/-- A value read from a map is a Go `int`. -/
theorem Tally.get_range (m : Tally) (w : String) :
    -9223372036854775808 ≤ Tally.get m w ∧ Tally.get m w ≤ 9223372036854775807 := by
  unfold Tally.get
  cases AList.lookup w m with
  | none => exact ⟨by decide, by decide⟩
  | some v => exact v.property

theorem Tally.wrapInt_get (m : Tally) (w : String) : wrapInt (Tally.get m w) = Tally.get m w :=
  (wrapInt_eq_iff _).mpr (Tally.get_range m w)

theorem Tally.get_addTo (m : Tally) (w : String) (d : Int) (x : String) :
    Tally.get (Tally.addTo m w d) x
      = if x = w then wrapInt (Tally.get m x + d) else Tally.get m x := by
  by_cases h : x = w
  · subst h
    simp [Tally.get, Tally.addTo, GoInt.wrap]
  · simp [Tally.get, Tally.addTo, h]

theorem Tally.has_addTo (m : Tally) (w : String) (d : Int) (x : String) :
    Tally.has (Tally.addTo m w d) x = (decide (x = w) || Tally.has m x) := by
  by_cases h : x = w
  · subst h
    simp [Tally.has, Tally.addTo]
  · simp [Tally.has, Tally.addTo, h]

/-- A map is determined at a key by its entry test and its read. -/
theorem Tally.lookup_eq (m n : Tally) (w : String) (hhas : Tally.has m w = Tally.has n w)
    (hget : Tally.get m w = Tally.get n w) : AList.lookup w m = AList.lookup w n := by
  unfold Tally.has at hhas
  unfold Tally.get at hget
  cases hm : AList.lookup w m with
  | none =>
    cases hn : AList.lookup w n with
    | none => rfl
    | some v => simp [hm, hn] at hhas
  | some u =>
    cases hn : AList.lookup w n with
    | none => simp [hm, hn] at hhas
    | some v =>
      simp only [hm, hn] at hget
      rw [Subtype.ext hget]

/-! ## The counting loop -/

theorem get_countWords (ws : List String) (counts : Tally) (w : String) :
    Tally.get (countWords ws counts) w = wrapInt (Tally.get counts w + ws.count w) := by
  induction ws generalizing counts with
  | nil => simp [countWords, Tally.wrapInt_get]
  | cons a ws ih =>
    have h := ih (Tally.addTo counts a 1)
    simp only [countWords, List.foldl_cons] at h ⊢
    rw [h, Tally.get_addTo, List.count_cons]
    by_cases hw : w = a
    · subst hw
      simp only [if_true, beq_self_eq_true, wrapInt_add_left]
      congr 1
      push_cast
      ring
    · have hw2 : ¬ (a = w) := fun e => hw e.symm
      simp [hw, hw2]

/-- The counting loop started from the empty map counts exactly when the list
is shorter than `2^63`. -/
theorem get_countWords_short (ws : List String) (w : String)
    (hlen : (ws.length : Int) ≤ 9223372036854775807) :
    Tally.get (countWords ws Tally.empty) w = ws.count w := by
  rw [get_countWords, Tally.get_empty, zero_add]
  apply (wrapInt_eq_iff _).mpr
  have h1 : ws.count w ≤ ws.length := List.count_le_length _ _
  omega

theorem has_countWords (ws : List String) (counts : Tally) (w : String) :
    Tally.has (countWords ws counts) w = (Tally.has counts w || decide (w ∈ ws)) := by
  induction ws generalizing counts with
  | nil => simp [countWords]
  | cons a ws ih =>
    have h := ih (Tally.addTo counts a 1)
    simp only [countWords, List.foldl_cons] at h ⊢
    rw [h, Tally.has_addTo]
    by_cases hw : w = a
    · subst hw
      simp
    · simp [hw, Bool.or_comm]

/-! ## The merge loop -/

/-- The value the entries `entries` hold for `w`, zero when there is none. -/
theorem get_mergeEntries (entries : List (Sigma fun _ : String => GoInt))
    (hnd : entries.NodupKeys) (f : Tally) (w : String) :
    Tally.get (mergeEntries f entries) w
      = wrapInt (Tally.get f w + Tally.get ⟨entries, hnd⟩ w) := by
  induction entries generalizing f with
  | nil =>
    have h0 : Tally.get ⟨[], hnd⟩ w = 0 := rfl
    simp [mergeEntries, h0, Tally.wrapInt_get]
  | cons e rest ih =>
    obtain ⟨k, v⟩ := e
    have hrest : rest.NodupKeys := (List.nodupKeys_cons.mp hnd).2
    have hk : k ∉ rest.keys := (List.nodupKeys_cons.mp hnd).1
    have h := ih hrest (Tally.addTo f k v.val)
    simp only [mergeEntries, List.foldl_cons] at h ⊢
    rw [h, Tally.get_addTo]
    by_cases hw : w = k
    · subst hw
      have hnone : List.dlookup w rest = none := List.dlookup_eq_none.mpr hk
      have h1 : Tally.get ⟨rest, hrest⟩ w = 0 := by
        simp [Tally.get, AList.lookup, hnone]
      have h2 : Tally.get ⟨⟨w, v⟩ :: rest, hnd⟩ w = v.val := by
        simp [Tally.get, AList.lookup]
      rw [h1, h2, if_pos rfl, add_zero]
      exact wrapInt_idem _
    · have h2 : Tally.get ⟨⟨k, v⟩ :: rest, hnd⟩ w = Tally.get ⟨rest, hrest⟩ w := by
        simp [Tally.get, AList.lookup, List.dlookup_cons_ne rest ⟨k, v⟩ hw]
      rw [h2, if_neg hw]

theorem has_mergeEntries (entries : List (Sigma fun _ : String => GoInt)) (f : Tally)
    (w : String) :
    Tally.has (mergeEntries f entries) w = (Tally.has f w || (List.dlookup w entries).isSome) := by
  induction entries generalizing f with
  | nil => simp [mergeEntries]
  | cons e rest ih =>
    obtain ⟨k, v⟩ := e
    have h := ih (Tally.addTo f k v.val)
    simp only [mergeEntries, List.foldl_cons] at h ⊢
    rw [h, Tally.has_addTo]
    by_cases hw : w = k
    · subst hw
      simp
    · simp [hw, List.dlookup_cons_ne rest ⟨k, v⟩ hw, Bool.or_comm]

theorem get_mergeTally (f : Tally) (input : reduceJob) (w : String) :
    Tally.get (mergeTally f input) w = wrapInt (Tally.get f w + Tally.get input.counts w) := by
  unfold mergeTally
  rw [get_mergeEntries _ input.counts.nodupKeys]

theorem has_mergeTally (f : Tally) (input : reduceJob) (w : String) :
    Tally.has (mergeTally f input) w = (Tally.has f w || Tally.has input.counts w) := by
  unfold mergeTally
  rw [has_mergeEntries]
  rfl

/-- The order in which `range` visits the entries of the received map does
not change the merged map. -/
theorem mergeEntries_order (f : Tally) (input : reduceJob)
    (entries : List (Sigma fun _ : String => GoInt)) (hp : entries.Perm input.counts.entries)
    (w : String) :
    AList.lookup w (mergeEntries f entries) = AList.lookup w (mergeTally f input) := by
  have hnd : entries.NodupKeys := (List.perm_nodupKeys hp).mpr input.counts.nodupKeys
  have hl : List.dlookup w entries = List.dlookup w input.counts.entries :=
    List.perm_dlookup w hnd input.counts.nodupKeys hp
  have hg : Tally.get ⟨entries, hnd⟩ w = Tally.get input.counts w := by
    simp only [Tally.get, AList.lookup, hl]
  apply Tally.lookup_eq
  · rw [has_mergeEntries, has_mergeTally, hl]
    rfl
  · rw [get_mergeEntries _ hnd, get_mergeTally, hg]

theorem get_reduceAll (inputs : List reduceJob) (f : Tally) (w : String) :
    Tally.get (reduceAll f inputs) w
      = wrapInt (Tally.get f w + (inputs.map (fun p => Tally.get p.counts w)).sum) := by
  induction inputs generalizing f with
  | nil => simp [reduceAll, Tally.wrapInt_get]
  | cons p rest ih =>
    have h := ih (mergeTally f p)
    simp only [reduceAll, List.foldl_cons] at h ⊢
    rw [h, get_mergeTally, List.map_cons, List.sum_cons, wrapInt_add_left, add_assoc]

theorem has_reduceAll (inputs : List reduceJob) (f : Tally) (w : String) :
    Tally.has (reduceAll f inputs) w
      = (Tally.has f w || inputs.any (fun p => Tally.has p.counts w)) := by
  induction inputs generalizing f with
  | nil => simp [reduceAll]
  | cons p rest ih =>
    have h := ih (mergeTally f p)
    simp only [reduceAll, List.foldl_cons] at h ⊢
    rw [h, has_mergeTally, List.any_cons, Bool.or_assoc]

/-- C7 as stated fails: merging the tally `a: 9223372036854775807` and then the
tally `a: 1` into an empty `finalCounts` leaves `finalCounts[a]` at
`-9223372036854775808`, because `finalCounts[w] += ct` is Go `int` addition,
while the sum of the two counts is `9223372036854775808`. -/
theorem reducer_sum_wraps :
    Tally.get fullTally.counts "a" = 9223372036854775807
    ∧ Tally.get unitTally.counts "a" = 1
    ∧ Tally.get (reduceAll Tally.empty [fullTally, unitTally]) "a" = -9223372036854775808
    ∧ ([fullTally, unitTally].map (fun p => Tally.get p.counts "a")).sum = 9223372036854775808
    ∧ Tally.get (reduceAll Tally.empty [fullTally, unitTally]) "a"
        ≠ ([fullTally, unitTally].map (fun p => Tally.get p.counts "a")).sum := by
  decide

/-- C7 as amended: starting from an empty `finalCounts`, after the merge loop of
`reducer` has processed the tallies `inputs` in turn, `finalCounts[w]` is the sum
of the `p[w]` over the tallies `p` (an absent word reading as 0) reduced modulo
`2^64` into the range of `int`; it is that sum itself exactly when the sum lies
in `[-2^63, 2^63)`; and `finalCounts` has an entry for `w` exactly when some
tally has one, so it has none for a word that occurs in no tally. -/
theorem reducer_sums_tallies_mod (inputs : List reduceJob) (w : String) :
    Tally.get (reduceAll Tally.empty inputs) w
        = wrapInt (inputs.map (fun p => Tally.get p.counts w)).sum
    ∧ (Tally.get (reduceAll Tally.empty inputs) w = (inputs.map (fun p => Tally.get p.counts w)).sum
        ↔ (-9223372036854775808 ≤ (inputs.map (fun p => Tally.get p.counts w)).sum
          ∧ (inputs.map (fun p => Tally.get p.counts w)).sum ≤ 9223372036854775807))
    ∧ Tally.has (reduceAll Tally.empty inputs) w = inputs.any (fun p => Tally.has p.counts w) := by
  rw [get_reduceAll, has_reduceAll, Tally.get_empty, Tally.has_empty, zero_add]
  exact ⟨rfl, wrapInt_eq_iff _, by simp⟩

/-- C8: merging a list of tallies into an empty final tally in any permuted
order gives the same final tally: the two maps agree at every word, on whether
the word has an entry and on its count. -/
theorem reducer_order_irrelevant (inputs permuted : List reduceJob)
    (hp : permuted.Perm inputs) (w : String) :
    AList.lookup w (reduceAll Tally.empty permuted) = AList.lookup w (reduceAll Tally.empty inputs) := by
  have hsum : (permuted.map (fun p => Tally.get p.counts w)).sum
      = (inputs.map (fun p => Tally.get p.counts w)).sum := (hp.map _).sum_eq
  have hany : permuted.any (fun p => Tally.has p.counts w)
      = inputs.any (fun p => Tally.has p.counts w) := by
    rw [Bool.eq_iff_iff]
    simp only [List.any_eq_true]
    constructor
    · rintro ⟨p, hmem, hh⟩
      exact ⟨p, hp.mem_iff.mp hmem, hh⟩
    · rintro ⟨p, hmem, hh⟩
      exact ⟨p, hp.mem_iff.mpr hmem, hh⟩
  apply Tally.lookup_eq
  · rw [has_reduceAll, has_reduceAll, hany]
  · rw [get_reduceAll, get_reduceAll, hsum]

/-! ## The splitter loop -/

theorem myMin_eq (a b : Int) : myMin a b = min a b := by
  unfold myMin
  by_cases h : a < b
  · simp [h, min_eq_left (le_of_lt h)]
  · simp [h, min_eq_right (not_lt.mp h)]

/-- The loop started at `i` with `n` iterations ahead of it. -/
theorem splitLoop_eq (buffer : GoSlice) (S : Int) (hS : 0 < S) (n : Nat) :
    ∀ (i : Int) (fuel : Nat), buffer.len ≤ i + n * S → (n = 0 ∨ i + (n - 1) * S < buffer.len) →
      n + 1 ≤ fuel →
      splitLoop buffer S fuel i
        = some ((List.range n).map
            (fun (k : Nat) =>
              (⟨buffer, i + (k : Int) * S, min S (buffer.len - (i + (k : Int) * S))⟩ : mapJob))) := by
  induction n with
  | zero =>
    intro i fuel h1 _ hf
    obtain ⟨f, rfl⟩ : ∃ f, fuel = f + 1 := ⟨fuel - 1, by omega⟩
    have : ¬ i < buffer.len := by simpa using h1
    simp [splitLoop, this]
  | succ n ih =>
    intro i fuel h1 h2 hf
    obtain ⟨f, rfl⟩ : ∃ f, fuel = f + 1 := ⟨fuel - 1, by omega⟩
    have h2b : i + n * S < buffer.len := by
      rcases h2 with h2 | h2
      · omega
      · simpa using h2
    have hnS : 0 ≤ (n : Int) * S := mul_nonneg (Int.ofNat_nonneg n) (le_of_lt hS)
    have hlt : i < buffer.len := by linarith
    have hrec := ih (i + S) f (by push_cast at h1; linarith)
      (by
        rcases Nat.eq_zero_or_pos n with h0 | hpos
        · exact Or.inl h0
        · right
          have : i + S + ((n : Int) - 1) * S = i + n * S := by ring
          rw [this]
          exact h2b)
      (by omega)
    simp only [splitLoop, hlt, if_true, hrec, Option.map_some', myMin_eq]
    rw [List.range_succ_eq_map, List.map_cons, List.map_map]
    congr 2
    · simp
    · apply List.map_congr_left
      intro k _
      simp only [Function.comp]
      have : i + S + (k : Int) * S = i + ((k + 1 : Nat) : Int) * S := by push_cast; ring
      rw [this]

/-- The number of chunks, as a natural number. -/
theorem chunkCount_bounds (L : Int) (hL : 0 ≤ L) (S : Int) (hS : 0 < S) :
    ((Int.toNat ⌈(L : ℚ) / (S : ℚ)⌉ : Nat) : Int) = ⌈(L : ℚ) / (S : ℚ)⌉
    ∧ L ≤ ⌈(L : ℚ) / (S : ℚ)⌉ * S
    ∧ (⌈(L : ℚ) / (S : ℚ)⌉ - 1) * S < L
    ∧ ⌈(L : ℚ) / (S : ℚ)⌉ ≤ L := by
  have hSq : (0 : ℚ) < (S : ℚ) := by exact_mod_cast hS
  have hS1 : (1 : ℚ) ≤ (S : ℚ) := by exact_mod_cast hS
  have hNq : (0 : ℚ) ≤ (L : ℚ) := by exact_mod_cast hL
  have hnn : 0 ≤ ⌈(L : ℚ) / (S : ℚ)⌉ := Int.ceil_nonneg (div_nonneg hNq (le_of_lt hSq))
  refine ⟨Int.toNat_of_nonneg hnn, ?_, ?_, ?_⟩
  · have h := Int.le_ceil ((L : ℚ) / (S : ℚ))
    rw [div_le_iff₀ hSq] at h
    exact_mod_cast h
  · have h := Int.ceil_lt_add_one ((L : ℚ) / (S : ℚ))
    have h2 : ((⌈(L : ℚ) / (S : ℚ)⌉ : ℚ) - 1) < (L : ℚ) / (S : ℚ) := by linarith
    rw [lt_div_iff₀ hSq] at h2
    exact_mod_cast h2
  · rw [Int.ceil_le]
    rw [div_le_iff₀ hSq]
    nlinarith

/-- C6: for a buffer of length N and a chunk size S > 0 the splitter loop of
`main` terminates (any fuel above N suffices) and sends exactly ceil(N/S)
descriptors, the k-th being `{startIndex: k*S, length: min(S, N - k*S)}`; when
N > 0 the length of the last one is N mod S if S does not divide N and S if it
does. -/
theorem splitter_descriptors (buffer : GoSlice) (S : Int) (hS : 0 < S) :
    ∃ jobs : List mapJob,
      (∀ fuel : Nat, buffer.elems.length + 1 ≤ fuel → splitLoop buffer S fuel 0 = some jobs)
      ∧ (jobs.length : Int) = ⌈(buffer.len : ℚ) / (S : ℚ)⌉
      ∧ (∀ k : Nat, k < jobs.length →
          jobs[k]? = some ⟨buffer, (k : Int) * S, min S (buffer.len - (k : Int) * S)⟩)
      ∧ (0 < buffer.len → ∃ last : mapJob, jobs.getLast? = some last
          ∧ last.length = if buffer.len % S = 0 then S else buffer.len % S) := by
  have hL : 0 ≤ buffer.len := by simp [GoSlice.len]
  obtain ⟨hn, hle, hlt, hcN⟩ := chunkCount_bounds buffer.len hL S hS
  generalize hc : ⌈(buffer.len : ℚ) / (S : ℚ)⌉ = c at hn hle hlt hcN
  generalize hnd : Int.toNat c = n at hn
  have hrun := splitLoop_eq buffer S hS n
  have hk : ∀ k : Nat, k < n →
      ((List.range n).map (fun (k : Nat) =>
        (⟨buffer, 0 + (k : Int) * S, min S (buffer.len - (0 + (k : Int) * S))⟩ : mapJob)))[k]?
      = some ⟨buffer, (k : Int) * S, min S (buffer.len - (k : Int) * S)⟩ := by
    intro k hk
    simp [List.getElem?_map, List.getElem?_range hk]
  refine ⟨(List.range n).map (fun (k : Nat) =>
      (⟨buffer, 0 + (k : Int) * S, min S (buffer.len - (0 + (k : Int) * S))⟩ : mapJob)),
    ?_, ?_, ?_, ?_⟩
  · intro fuel hf
    apply hrun 0 fuel
    · rw [hn]
      linarith
    · by_cases h0 : n = 0
      · exact Or.inl h0
      · right
        rw [hn]
        linarith
    · have h1 : (n : Int) ≤ buffer.elems.length := by
        rw [hn]
        exact hcN
      omega
  · simp [hn]
  · intro k hlen
    apply hk
    simpa using hlen
  · intro hpos
    have hcpos : 0 < c := by
      by_contra hneg
      have : c * S ≤ 0 := mul_nonpos_of_nonpos_of_nonneg (not_lt.mp hneg) (le_of_lt hS)
      linarith
    have hn1 : 1 ≤ n := by omega
    refine ⟨⟨buffer, ((n - 1 : Nat) : Int) * S, min S (buffer.len - ((n - 1 : Nat) : Int) * S)⟩,
      ?_, ?_⟩
    · rw [List.getLast?_eq_getElem?]
      simp only [List.length_map, List.length_range]
      exact hk (n - 1) (by omega)
    · have hcast : ((n - 1 : Nat) : Int) = c - 1 := by omega
      simp only [hcast]
      have hr1 : 0 < buffer.len - (c - 1) * S := by linarith
      have hr2 : buffer.len - (c - 1) * S ≤ S := by linarith
      rw [min_eq_right hr2]
      have hdecomp : buffer.len = (buffer.len - (c - 1) * S) + S * (c - 1) := by ring
      by_cases hfull : buffer.len - (c - 1) * S = S
      · have hdvd : buffer.len % S = 0 := by
          have : buffer.len = S * c := by linarith
          rw [this]
          exact Int.mul_emod_right S c
        rw [if_pos hdvd]
        exact hfull
      · have hlt2 : buffer.len - (c - 1) * S < S := lt_of_le_of_ne hr2 hfull
        have hmod : buffer.len % S = buffer.len - (c - 1) * S := by
          conv_lhs => rw [hdecomp]
          rw [Int.add_mul_emod_self_left]
          exact Int.emod_eq_of_lt (le_of_lt hr1) hlt2
        rw [hmod, if_neg (ne_of_gt hr1)]

/-- What the descriptors of the loop started at `i` cover. -/
theorem splitLoop_covers (buffer : GoSlice) (S : Int) (hS : 0 < S) :
    ∀ (fuel : Nat) (i : Int) (jobs : List mapJob), splitLoop buffer S fuel i = some jobs →
      (∀ job ∈ jobs, i ≤ job.startIndex ∧ 0 < job.length
        ∧ job.startIndex + job.length ≤ buffer.len)
      ∧ ∀ x : Int, (jobs.filter (fun job => job.covers x)).length
          = if i ≤ x ∧ x < buffer.len then 1 else 0 := by
  intro fuel
  induction fuel with
  | zero =>
    intro i jobs h
    simp [splitLoop] at h
  | succ f ih =>
    intro i jobs h
    by_cases hlt : i < buffer.len
    · simp only [splitLoop, hlt, if_true, Option.map_eq_some'] at h
      obtain ⟨rest, hrest, rfl⟩ := h
      obtain ⟨hin, hcount⟩ := ih (i + S) rest hrest
      have hmin := myMin_eq S (buffer.len - i)
      have hm1 : myMin S (buffer.len - i) ≤ S := by rw [hmin]; exact min_le_left _ _
      have hm2 : myMin S (buffer.len - i) ≤ buffer.len - i := by rw [hmin]; exact min_le_right _ _
      have hm3 : 0 < myMin S (buffer.len - i) := by
        rw [hmin]
        exact lt_min hS (by linarith)
      have hm4 : myMin S (buffer.len - i) = S ∨ myMin S (buffer.len - i) = buffer.len - i := by
        rw [hmin]
        exact min_choice _ _
      constructor
      · intro job hjob
        rcases List.mem_cons.mp hjob with rfl | hmem
        · exact ⟨le_refl _, hm3, by simpa using (by linarith : i + myMin S (buffer.len - i) ≤ buffer.len)⟩
        · obtain ⟨h1, h2, h3⟩ := hin job hmem
          exact ⟨by linarith, h2, h3⟩
      · intro x
        rw [List.filter_cons]
        have hc := hcount x
        by_cases hcov : i ≤ x ∧ x < i + myMin S (buffer.len - i)
        · have hcv : mapJob.covers ⟨buffer, i, myMin S (buffer.len - i)⟩ x = true := by
            simp [mapJob.covers, hcov]
          have hno : ¬ (i + S ≤ x ∧ x < buffer.len) := by
            intro hh
            omega
          have hyes : i ≤ x ∧ x < buffer.len := ⟨hcov.1, by omega⟩
          rw [if_pos hcv, List.length_cons, hc, if_neg hno, if_pos hyes]
        · have hcv : ¬ (mapJob.covers ⟨buffer, i, myMin S (buffer.len - i)⟩ x = true) := by
            simp only [mapJob.covers, decide_eq_true_eq]
            exact hcov
          rw [if_neg hcv, hc]
          have hiff : (i + S ≤ x ∧ x < buffer.len) ↔ (i ≤ x ∧ x < buffer.len) := by
            constructor
            · intro hh
              exact ⟨by omega, hh.2⟩
            · intro hh
              refine ⟨?_, hh.2⟩
              rcases hm4 with h4 | h4
              · rw [h4] at hcov
                by_contra hn
                exact hcov ⟨hh.1, by omega⟩
              · rw [h4] at hcov
                exfalso
                exact hcov ⟨hh.1, by omega⟩
          by_cases hh : i ≤ x ∧ x < buffer.len
          · rw [if_pos hh, if_pos (hiff.mpr hh)]
          · rw [if_neg hh, if_neg (fun h2 => hh (hiff.mp h2))]
    · simp only [splitLoop, hlt, if_false, Option.some.injEq] at h
      subst h
      constructor
      · intro job hjob
        simp at hjob
      · intro x
        have : ¬ (i ≤ x ∧ x < buffer.len) := by
          intro hh
          omega
        simp [this]

/-- C3: for a buffer of length N and a chunk size S > 0 the splitter loop of
`main` returns descriptors whose ranges `[startIndex, startIndex+length)`
partition `[0, N)`: every range lies inside `[0, N)` and every index of
`[0, N)` is in the range of exactly one descriptor. -/
theorem splitter_partitions (buffer : GoSlice) (S : Int) (hS : 0 < S) :
    ∃ jobs : List mapJob,
      (∀ fuel : Nat, buffer.elems.length + 1 ≤ fuel → splitLoop buffer S fuel 0 = some jobs)
      ∧ (∀ job ∈ jobs, 0 ≤ job.startIndex ∧ job.startIndex + job.length ≤ buffer.len)
      ∧ ∀ x : Int, 0 ≤ x → x < buffer.len →
          (jobs.filter (fun job => job.covers x)).length = 1 := by
  have hL : 0 ≤ buffer.len := by simp [GoSlice.len]
  obtain ⟨hn, hle, hlt, hcN⟩ := chunkCount_bounds buffer.len hL S hS
  generalize hc : ⌈(buffer.len : ℚ) / (S : ℚ)⌉ = c at hn hle hlt hcN
  generalize hnd : Int.toNat c = n at hn
  have hall : ∀ fuel : Nat, buffer.elems.length + 1 ≤ fuel →
      splitLoop buffer S fuel 0 = some ((List.range n).map (fun (k : Nat) =>
        (⟨buffer, 0 + (k : Int) * S, min S (buffer.len - (0 + (k : Int) * S))⟩ : mapJob))) := by
    intro fuel hf
    apply splitLoop_eq buffer S hS n 0 fuel
    · rw [hn]
      linarith
    · by_cases h0 : n = 0
      · exact Or.inl h0
      · right
        rw [hn]
        linarith
    · have h1 : (n : Int) ≤ buffer.elems.length := by
        rw [hn]
        exact hcN
      omega
  obtain ⟨hin, hcount⟩ := splitLoop_covers buffer S hS _ 0 _ (hall _ (le_refl _))
  refine ⟨_, hall, ?_, ?_⟩
  · intro job hjob
    obtain ⟨h1, _, h3⟩ := hin job hjob
    exact ⟨h1, h3⟩
  · intro x hx0 hxN
    rw [hcount x, if_pos ⟨hx0, hxN⟩]

/-- Five tokens in chunks of two: three descriptors, the last of length 1. -/
theorem splitter_descriptors_witness :
    (0 : Int) < 2 ∧ ∃ jobs : List mapJob,
      (∀ fuel : Nat, fiveTokens.elems.length + 1 ≤ fuel →
        splitLoop fiveTokens 2 fuel 0 = some jobs)
      ∧ (jobs.length : Int) = ⌈(fiveTokens.len : ℚ) / ((2 : Int) : ℚ)⌉
      ∧ (∀ k : Nat, k < jobs.length →
          jobs[k]? = some ⟨fiveTokens, (k : Int) * 2, min 2 (fiveTokens.len - (k : Int) * 2)⟩)
      ∧ (0 < fiveTokens.len → ∃ last : mapJob, jobs.getLast? = some last
          ∧ last.length = if fiveTokens.len % 2 = 0 then 2 else fiveTokens.len % 2) :=
  ⟨by decide, splitter_descriptors fiveTokens 2 (by decide)⟩

/-- Five tokens in chunks of two: the three ranges partition `[0, 5)`. -/
theorem splitter_partitions_witness :
    (0 : Int) < 2 ∧ ∃ jobs : List mapJob,
      (∀ fuel : Nat, fiveTokens.elems.length + 1 ≤ fuel →
        splitLoop fiveTokens 2 fuel 0 = some jobs)
      ∧ (∀ job ∈ jobs, 0 ≤ job.startIndex ∧ job.startIndex + job.length ≤ fiveTokens.len)
      ∧ ∀ x : Int, 0 ≤ x → x < fiveTokens.len →
          (jobs.filter (fun job => job.covers x)).length = 1 :=
  ⟨by decide, splitter_partitions fiveTokens 2 (by decide)⟩

/-- Two tallies merged in both orders agree on the word `a`. -/
theorem reducer_order_irrelevant_witness :
    List.Perm
        [(⟨countWords ["b", "a"] Tally.empty⟩ : reduceJob), ⟨countWords ["a", "c"] Tally.empty⟩]
        [⟨countWords ["a", "c"] Tally.empty⟩, ⟨countWords ["b", "a"] Tally.empty⟩]
    ∧ AList.lookup "a" (reduceAll Tally.empty
          [⟨countWords ["b", "a"] Tally.empty⟩, ⟨countWords ["a", "c"] Tally.empty⟩])
        = AList.lookup "a" (reduceAll Tally.empty
          [⟨countWords ["a", "c"] Tally.empty⟩, ⟨countWords ["b", "a"] Tally.empty⟩]) :=
  ⟨List.Perm.swap _ _ _, reducer_order_irrelevant _ _ (List.Perm.swap _ _ _) "a"⟩

/-! ## The slice expression of `mapfunc` -/

/-- What `mapfunc` does on any descriptor: it panics unless
`0 ≤ start ≤ start+ct+1 ≤ cap`, and otherwise sends the tally of the `ct + 1`
elements of the backing array from index `start` on. -/
theorem mapfunc_spec (job : mapJob) :
    mapfunc job
      = if 0 ≤ job.startIndex ∧ job.startIndex ≤ job.startIndex + job.length + 1
            ∧ job.startIndex + job.length + 1 ≤ job.wordsBag.cap then
          some ⟨countWords
            (((job.wordsBag.elems ++ job.wordsBag.spare).drop job.startIndex.toNat).take
              (job.length + 1).toNat) Tally.empty⟩
        else none := by
  unfold mapfunc GoSlice.slice
  by_cases h : 0 ≤ job.startIndex ∧ job.startIndex ≤ job.startIndex + job.length + 1
      ∧ job.startIndex + job.length + 1 ≤ job.wordsBag.cap
  · have e : job.startIndex + job.length + 1 - job.startIndex = job.length + 1 := by ring
    simp only [h, and_self, if_true, e]
  · simp only [h, if_false]

/-- The window `mapfunc` reads for a chunk `[a, a+m)` that lies inside the
buffer contains the chunk. -/
theorem count_window_ge (buffer : GoSlice) (a m : Nat) (x : String)
    (h : a + m ≤ buffer.elems.length) :
    List.count x ((buffer.elems.drop a).take m)
      ≤ List.count x (((buffer.elems ++ buffer.spare).drop a).take (m + 1)) := by
  have ha : a ≤ buffer.elems.length := by omega
  have hm : m ≤ (buffer.elems.drop a).length := by
    rw [List.length_drop]
    omega
  rw [List.take_add, List.count_append, List.drop_append_of_le_length ha,
    List.take_append_of_le_length hm]
  exact Nat.le_add_right _ _

/-- The window `mapfunc` reads for a chunk `[a, a+m)` holds one token more than
the chunk. -/
theorem count_window_le (buffer : GoSlice) (a m : Nat) (x : String)
    (h : a + m ≤ buffer.elems.length) :
    List.count x (((buffer.elems ++ buffer.spare).drop a).take (m + 1))
      ≤ List.count x ((buffer.elems.drop a).take m) + 1 := by
  have ha : a ≤ buffer.elems.length := by omega
  have hm : m ≤ (buffer.elems.drop a).length := by
    rw [List.length_drop]
    omega
  rw [List.take_add, List.count_append, List.drop_append_of_le_length ha,
    List.take_append_of_le_length hm]
  have h1 : List.count x (List.take 1 (List.drop m (List.drop a buffer.elems ++ buffer.spare)))
      ≤ 1 :=
    le_trans (List.count_le_length _ _) (List.length_take_le _ _)
  omega

/-- The window `mapfunc` reads for the last chunk `[a, N)` is the chunk followed
by the first unused slot of the backing array. -/
theorem count_window_last (buffer : GoSlice) (a : Nat) (x : String) (rest : List String)
    (ha : a ≤ buffer.elems.length) (hsp : buffer.spare = x :: rest) :
    List.count x (((buffer.elems ++ buffer.spare).drop a).take (buffer.elems.length - a + 1))
      = List.count x (buffer.elems.drop a) + 1 := by
  have hlen : (buffer.elems.drop a).length = buffer.elems.length - a := List.length_drop _ _
  rw [List.drop_append_of_le_length ha, hsp, ← hlen, List.take_append, List.count_append]
  simp

theorem count_drop_split (l : List String) (a m : Nat) (x : String) :
    List.count x (l.drop a) = List.count x ((l.drop a).take m) + List.count x (l.drop (a + m)) := by
  conv_lhs => rw [← List.take_append_drop m (l.drop a)]
  rw [List.count_append, List.drop_drop]

/-- Every tally of a run of the splitter and the map tasks from index `a` on,
for a buffer shorter than `2^63 - 1`: the first unused slot of the backing array
exists, and over all tallies its word is counted at least once more, and at
most `N - a` times more, than it occurs in the buffer from `a` on. -/
theorem parallel_overcounts (buffer : GoSlice) (s : Nat) (hs : 0 < s)
    (hN : (buffer.elems.length : Int) + 1 ≤ 9223372036854775807) :
    ∀ (fuel a : Nat) (jobs : List mapJob) (tallies : List reduceJob),
      a < buffer.elems.length →
      splitLoop buffer (s : Int) fuel (a : Int) = some jobs →
      jobs.mapM mapfunc = some tallies →
      ∃ (x : String) (rest : List String), buffer.spare = x :: rest
        ∧ (List.count x (buffer.elems.drop a) : Int) + 1
            ≤ (tallies.map (fun r => Tally.get r.counts x)).sum
        ∧ (tallies.map (fun r => Tally.get r.counts x)).sum
            ≤ (List.count x (buffer.elems.drop a) : Int) + ((buffer.elems.length - a : Nat) : Int) := by
  intro fuel
  induction fuel with
  | zero =>
    intro a jobs tallies _ h
    simp [splitLoop] at h
  | succ f ih =>
    intro a jobs tallies ha hsplit hmap
    have hlt : (a : Int) < buffer.len := by
      simp only [GoSlice.len]
      exact_mod_cast ha
    simp only [splitLoop, hlt, if_true, Option.map_eq_some'] at hsplit
    obtain ⟨restJobs, hrest, rfl⟩ := hsplit
    have hcast : (a : Int) + (s : Int) = ((a + s : Nat) : Int) := by push_cast; rfl
    rw [hcast] at hrest
    simp only [List.mapM_cons, Option.pure_def, Option.bind_eq_bind, Option.bind_eq_some,
      Option.some.injEq] at hmap
    obtain ⟨r, hr, rs, hrs, rfl⟩ := hmap
    rw [mapfunc_spec] at hr
    simp only [myMin_eq] at hr
    split at hr
    case isFalse => exact absurd hr (by simp)
    case isTrue hbounds =>
      simp only [Option.some.injEq] at hr
      subst hr
      have hshort : ∀ (k : Nat) (x : String), k ≤ buffer.elems.length →
          Tally.get (countWords (((buffer.elems ++ buffer.spare).drop a).take (k + 1))
            Tally.empty) x
          = List.count x (((buffer.elems ++ buffer.spare).drop a).take (k + 1)) := by
        intro k x hk
        apply get_countWords_short
        have := List.length_take_le (k + 1) ((buffer.elems ++ buffer.spare).drop a)
        omega
      by_cases hmore : a + s < buffer.elems.length
      · obtain ⟨x, rest, hsp, hlow, hupp⟩ := ih (a + s) restJobs rs hmore hrest hrs
        refine ⟨x, rest, hsp, ?_, ?_⟩
        all_goals
          have hmin : min (s : Int) (buffer.len - (a : Int)) = (s : Int) := by
            apply min_eq_left
            simp only [GoSlice.len]
            omega
          have e : ((s : Int) + 1).toNat = s + 1 := by omega
          have hge := count_window_ge buffer a s x (le_of_lt hmore)
          have hle := count_window_le buffer a s x (le_of_lt hmore)
          have hsplit2 := count_drop_split buffer.elems a s x
          simp only [List.map_cons, List.sum_cons, hmin, e, Int.toNat_ofNat,
            hshort s x (by omega)]
          omega
      · have hmin : min (s : Int) (buffer.len - (a : Int))
            = ((buffer.elems.length - a : Nat) : Int) := by
          rw [min_eq_right]
          · simp only [GoSlice.len]
            omega
          · simp only [GoSlice.len]
            omega
        simp only [hmin] at hbounds
        have hcap : buffer.elems.length + 1 ≤ buffer.elems.length + buffer.spare.length := by
          have := hbounds.2.2
          simp only [GoSlice.cap] at this
          omega
        obtain ⟨x, rest, hsp⟩ : ∃ x rest, buffer.spare = x :: rest := by
          cases hspare : buffer.spare with
          | nil =>
            rw [hspare] at hcap
            simp at hcap
          | cons x rest => exact ⟨x, rest, rfl⟩
        have hnone : rs = [] := by
          cases f with
          | zero => simp [splitLoop] at hrest
          | succ g =>
            have hnot : ¬ (((a + s : Nat) : Int) < buffer.len) := by
              simp only [GoSlice.len]
              omega
            simp only [splitLoop, hnot, if_false, Option.some.injEq] at hrest
            subst hrest
            have hnil : (some [] : Option (List reduceJob)) = some rs := hrs
            exact (Option.some.inj hnil).symm
        subst hnone
        have e : (((buffer.elems.length - a : Nat) : Int) + 1).toNat
            = buffer.elems.length - a + 1 := by omega
        have hlast := count_window_last buffer a x rest (le_of_lt ha) hsp
        refine ⟨x, rest, hsp, ?_, ?_⟩
        all_goals
          simp only [List.map_cons, List.sum_cons, List.map_nil, List.sum_nil, hmin, e,
            Int.toNat_ofNat, hshort (buffer.elems.length - a) x (by omega), hlast]
          omega

/-- On every non-empty buffer shorter than `2^62` and for every chunk size
S > 0, whenever the parallel path produces a final tally, some word has a count
different from the serial count: the word in the first unused slot of the
backing array. -/
theorem parallelCount_never_serial (buffer : GoSlice) (S : Int) (hS : 0 < S)
    (hne : buffer.elems ≠ []) (hN : 2 * (buffer.elems.length : Int) ≤ 9223372036854775807)
    (fuel : Nat) (t : Tally) (h : parallelCount fuel buffer S = some t) :
    ∃ w : String, Tally.get t w ≠ Tally.get (serialCount buffer) w := by
  obtain ⟨s, rfl⟩ := Int.eq_ofNat_of_zero_le (le_of_lt hS)
  have hs : 0 < s := by exact_mod_cast hS
  have hpos : 0 < buffer.elems.length := List.length_pos.mpr hne
  unfold parallelCount at h
  cases hsplit : splitLoop buffer (s : Int) fuel 0 with
  | none =>
    rw [hsplit] at h
    exact absurd h (by simp)
  | some jobs =>
    rw [hsplit] at h
    dsimp only at h
    cases hmap : jobs.mapM mapfunc with
    | none =>
      rw [hmap] at h
      exact absurd h (by simp)
    | some tallies =>
      rw [hmap] at h
      simp only [Option.some.injEq] at h
      subst h
      obtain ⟨x, rest, _, hlow, hupp⟩ :=
        parallel_overcounts buffer s hs (by omega) fuel 0 jobs tallies hpos
          (by simpa using hsplit) hmap
      refine ⟨x, ?_⟩
      have hc : List.count x buffer.elems ≤ buffer.elems.length := List.count_le_length _ _
      simp only [List.drop_zero, Nat.sub_zero] at hlow hupp
      have hpar : Tally.get (reduceAll Tally.empty tallies) x
          = (tallies.map (fun r => Tally.get r.counts x)).sum := by
        rw [get_reduceAll, Tally.get_empty, zero_add]
        apply (wrapInt_eq_iff _).mpr
        omega
      have hser : Tally.get (serialCount buffer) x = List.count x buffer.elems := by
        unfold serialCount
        exact get_countWords_short _ x (by omega)
      rw [hpar, hser]
      omega

/-- C1 at concrete scenario A (chunk size 2).  The three descriptors are
`(0,2)`, `(2,2)`, `(4,2)`, but `mapfunc` slices `[0:3]`, `[2:5]`, `[4:7]`.  When
the backing array is full the last task panics and no final tally is produced;
when it has room the final tally is `a:4, b:3, c:1` plus one count for the
empty string found at index 6, while the serial count is `a:3, b:2, c:1`. -/
theorem parallel_differs_from_serial :
    (splitLoop scenarioA 2 7 0).map (List.map (fun job => (job.startIndex, job.length)))
        = some [(0, 2), (2, 2), (4, 2)]
    ∧ parallelCount 7 scenarioA 2 = none
    ∧ (parallelCount 7 scenarioARoomy 2).map
          (fun t => (Tally.get t "a", Tally.get t "b", Tally.get t "c", Tally.get t ""))
        = some (4, 3, 1, 1)
    ∧ (Tally.get (serialCount scenarioARoomy) "a", Tally.get (serialCount scenarioARoomy) "b",
        Tally.get (serialCount scenarioARoomy) "c", Tally.get (serialCount scenarioARoomy) "")
        = (3, 2, 1, 0) := by
  decide

/-- C4 at the buffer `[a, b]` and the descriptor `(0, 1)`, which lies inside
the buffer: the tally `mapfunc` sends counts `b`, the token at index
`startIndex + length = 1`, although `b` does not occur in `[0, 1)`; and the
descriptor `(0, 2)`, which also lies inside the buffer, makes `mapfunc` panic
when the backing array is full. -/
theorem mapfunc_counts_one_past_chunk :
    (mapfunc ⟨⟨["a", "b"], []⟩, 0, 1⟩).map
        (fun r => (Tally.get r.counts "a", Tally.get r.counts "b")) = some (1, 1)
    ∧ ((["a", "b"].drop 0).take 1).count "b" = 0
    ∧ mapfunc ⟨⟨["a", "b"], []⟩, 0, 2⟩ = none :=
  ⟨by decide, by decide, rfl⟩

/-- C5 at N = 5 and S = 10: the splitter sends the one descriptor `(0, 5)`, and
`mapfunc` evaluates the slice expression with upper bound `0 + 5 + 1 = 6 > N`.
When `cap = 5` the expression panics; when the backing array has room the task
reads index 5, which is outside `[0, N-1]`. -/
theorem mapfunc_slices_past_buffer :
    splitLoop fiveTokens 10 6 0 = some [⟨fiveTokens, 0, 5⟩]
    ∧ (0 : Int) + 5 + 1 > fiveTokens.len
    ∧ fiveTokens.slice 0 (0 + 5 + 1) = none
    ∧ mapfunc ⟨fiveTokens, 0, 5⟩ = none
    ∧ fiveTokensRoomy.slice 0 (0 + 5 + 1) = some ["to", "be", "or", "not", "to", ""]
    ∧ (mapfunc ⟨fiveTokensRoomy, 0, 5⟩).map (fun r => Tally.get r.counts "") = some 1 :=
  ⟨by decide, by decide, by decide, rfl, by decide, by decide⟩

/-! ## The goroutines -/

theorem reachable_run (cfg : Config) (sched : List Action) :
    ∀ s t : Sys, Reachable cfg s → run cfg sched s = some t → Reachable cfg t := by
  induction sched with
  | nil =>
    intro s t hs h
    simp only [run, Option.some.injEq] at h
    exact h ▸ hs
  | cons a sched ih =>
    intro s t hs h
    simp only [run, Option.bind_eq_some] at h
    obtain ⟨u, hu, hrest⟩ := h
    exact ih u t (Reachable.step a s u hs hu) hrest

/-- C2 on the run `threeTokensRun`: `main` sends its one descriptor, leaves the
loop, starts the reducer and calls `wg.Wait()` before `mapper` has moved.  The
counter is still 0, so `wg.Wait()` returns while the descriptor is still queued
on `c1` and `finalCounts` is empty. -/
theorem wait_returns_before_merge :
    (∃ s : Sys, Reachable threeTokensRun s ∧ s.mainPc = MainPc.done
      ∧ s.c1 = [threeTokensJob] ∧ s.finalCounts = Tally.empty)
    ∧ ¬ (∀ s : Sys, Reachable threeTokensRun s → s.mainPc = MainPc.done → s.allMerged = true) := by
  have hrun : run threeTokensRun [Action.main, Action.main, Action.main] Sys.init
      = some { Sys.init with mainPc := MainPc.done, reducerPc := ReducerPc.recv,
                             c1 := [threeTokensJob] } := by
    rfl
  have hreach := reachable_run threeTokensRun _ _ _ Reachable.init hrun
  refine ⟨⟨_, hreach, rfl, rfl, rfl⟩, ?_⟩
  intro hall
  have h := hall _ hreach rfl
  revert h
  decide

/-- C9 on the run `threeTokensRun`: `mapper` executes `go mapfunc(job, c2)`
(line 30) before `wg.Add(1)` (line 31).  After the launch the counter is 0 with
one map task launched and not merged; and when the task sends and the reducer
merges and calls `wg.Done()` before `mapper` reaches line 31, the counter
becomes -1. -/
theorem counter_lags_behind_launch :
    (∃ s : Sys, Reachable threeTokensRun s ∧ s.mapperPc = MapperPc.add
      ∧ s.tasks = [threeTokensJob] ∧ s.launchedNotMerged = 1 ∧ s.wg = 0)
    ∧ (∃ s : Sys, Reachable threeTokensRun s ∧ s.mapperPc = MapperPc.add ∧ s.wg = -1
      ∧ s.panicked = true) := by
  have hrun1 : run threeTokensRun [Action.main, Action.mapper, Action.mapper] Sys.init
      = some { Sys.init with mainPc := MainPc.split numWordsPerMap, mapperPc := MapperPc.add,
                             tasks := [threeTokensJob] } := by
    rfl
  have hrun2 : (run threeTokensRun
      [Action.main, Action.mapper, Action.mapper, Action.main, Action.task 0, Action.reducer,
        Action.reducer] Sys.init).map (fun s => (s.mapperPc, s.wg, s.panicked))
      = some (MapperPc.add, -1, true) := by
    decide
  refine ⟨⟨_, reachable_run threeTokensRun _ _ _ Reachable.init hrun1, rfl, rfl, by decide, rfl⟩, ?_⟩
  obtain ⟨s, hs, hprops⟩ := Option.map_eq_some'.mp hrun2
  have hreach := reachable_run threeTokensRun _ _ _ Reachable.init hs
  simp only [Prod.mk.injEq] at hprops
  exact ⟨s, hreach, hprops.1, hprops.2.1, hprops.2.2⟩

theorem idle_step (spare : List String) (S : Int) (numCPU : Nat) (a : Action) (s t : Sys)
    (hs : s.idle) (hstep : step ⟨⟨[], spare⟩, S, numCPU⟩ a s = some t) : t.idle := by
  obtain ⟨mainPc, mapperPc, reducerPc, c1, tasks, c2, finalCounts, wg, panicked⟩ := s
  obtain ⟨h1, h2, h3, h4, h5, h6, h7, h8, h9⟩ := hs
  simp only at h1 h2 h3 h4 h5 h6 h7 h8 h9
  subst h1 h2 h3 h4 h5 h6 h7
  cases a with
  | main =>
    rcases h9 with h9 | h9 | h9
    · subst h9
      simp only [step, stepMain, GoSlice.len, List.length_nil, Nat.cast_zero, lt_self_iff_false,
        if_false, Bool.false_eq_true, Option.some.injEq] at hstep
      subst hstep
      exact ⟨rfl, rfl, rfl, rfl, rfl, rfl, rfl, by simp, Or.inr (Or.inl rfl)⟩
    · subst h9
      simp only [step, stepMain, if_true, if_false, Bool.false_eq_true,
        Option.some.injEq] at hstep
      subst hstep
      exact ⟨rfl, rfl, rfl, rfl, rfl, rfl, rfl, h8, Or.inr (Or.inr rfl)⟩
    · subst h9
      simp [step, stepMain] at hstep
  | mapper => simp [step, stepMapper] at hstep
  | task k => simp [step, stepTask] at hstep
  | reducer =>
    cases reducerPc with
    | notStarted => simp [step, stepReducer] at hstep
    | recv => simp [step, stepReducer] at hstep
    | done => exact absurd rfl h8

theorem reachable_idle (spare : List String) (S : Int) (numCPU : Nat) (s : Sys)
    (hs : Reachable ⟨⟨[], spare⟩, S, numCPU⟩ s) : s.idle := by
  induction hs with
  | init => exact ⟨rfl, rfl, rfl, rfl, rfl, rfl, rfl, by simp [Sys.init], Or.inl rfl⟩
  | step a s t _ hstep ih => exact idle_step spare S numCPU a s t ih hstep

/-- C10: for the empty buffer and any chunk size the splitter loop of `main`
ends at its first test with no descriptor; in every state any schedule reaches
nothing is queued on `c1`, `mapper` still waits at its receive, no map task
exists, the counter is 0 and `finalCounts` is the empty map; `wg.Wait()` does
return; and the final tally of the parallel path is the empty map. -/
theorem empty_buffer_dispatches_nothing (spare : List String) (S : Int) (numCPU : Nat) :
    (∀ fuel : Nat, splitLoop ⟨[], spare⟩ S (fuel + 1) 0 = some [])
    ∧ (∀ s : Sys, Reachable ⟨⟨[], spare⟩, S, numCPU⟩ s →
        s.c1 = [] ∧ s.mapperPc = MapperPc.recv ∧ s.tasks = [] ∧ s.wg = 0
          ∧ s.finalCounts = Tally.empty)
    ∧ (∃ s : Sys, Reachable ⟨⟨[], spare⟩, S, numCPU⟩ s ∧ s.mainPc = MainPc.done
        ∧ s.finalCounts = Tally.empty)
    ∧ (∀ fuel : Nat, parallelCount (fuel + 1) ⟨[], spare⟩ S = some Tally.empty) := by
  have hsplit : ∀ fuel : Nat, splitLoop ⟨[], spare⟩ S (fuel + 1) 0 = some [] := by
    intro fuel
    simp [splitLoop, GoSlice.len]
  refine ⟨hsplit, ?_, ?_, ?_⟩
  · intro s hs
    obtain ⟨h1, h2, h3, _, h5, h6, _⟩ := reachable_idle spare S numCPU s hs
    exact ⟨h1, h2, h3, h5, h6⟩
  · have hrun : run ⟨⟨[], spare⟩, S, numCPU⟩ [Action.main, Action.main] Sys.init
        = some { Sys.init with mainPc := MainPc.done, reducerPc := ReducerPc.recv } := by
      simp [run, step, stepMain, Sys.init, GoSlice.len]
    exact ⟨_, reachable_run _ _ _ _ Reachable.init hrun, rfl, rfl⟩
  · intro fuel
    unfold parallelCount
    rw [hsplit]
    rfl

end MapRed
